import Mathlib

/-!
Verification of the solana-events-parser core against its specification.

The definitions below are a shallow embedding of the Rust sources:
* `src/log_parser.rs`     — the log reconstructor (`bind_events`),
* `src/instruction_parser.rs` — the instruction binder (`bind_instructions`),
* `src/transaction_parser.rs` — the joiner, the dispatcher guard and the
  token-balance delta computation,
* `src/event_reader_service.rs` — the live / resync engine decision logic.

Machine integers are modelled as `Nat`/`Int`; fallible Rust code returns
`Except`; a Rust panic is modelled by an outer `Option` layer (`none` =
panic).  `HashMap` values are modelled as key-unique association lists.
-/

deriving instance DecidableEq for Except

namespace SolanaEventsVerif

/-- A byte (`u8`). -/
abbrev Byte := Fin 256

/-- 32-byte program / account identifier: `Pubkey([u8; 32])` in `log_parser.rs`. -/
abbrev Pubkey := { l : List Byte // l.length = 32 }

/-- `Level = NonZeroU8`: the invocation depth attached to each invoke marker. -/
abbrev Level := { n : Nat // 0 < n ∧ n < 256 }

/-- Sample pubkey built from a single repeated byte (for concrete witnesses). -/
def pkOf (b : Byte) : Pubkey := ⟨List.replicate 32 b, by simp⟩

def level1 : Level := ⟨1, by decide⟩

def level2 : Level := ⟨2, by decide⟩

/-- The lexed log line (`enum Log` in `log_parser.rs`). -/
inductive Log where
  | truncated
  | programInvoke (program_id : Pubkey) (level : Level)
  | programResult (program_id : Pubkey) (err : Option String)
  | programFailedComplete (err : String)
  | programLog (log : String)
  | programData (data : String)
  | programReturn (program_id : Pubkey) (data : String)
  | programConsumed (program_id : Pubkey) (consumed all : Nat)
deriving DecidableEq

/-- `struct ProgramReturn` of `log_parser.rs`. -/
structure ProgramReturn where
  program_id : Pubkey
  data : String
deriving DecidableEq

/-- `struct ProgramContext` of `log_parser.rs`. -/
structure ProgramContext where
  program_id : Pubkey
  call_index : Nat
  invoke_level : Level
deriving DecidableEq

/-- `enum ProgramLog` of `log_parser.rs`. -/
inductive ProgramLog where
  | data (s : String)
  | log (s : String)
  | ret (r : ProgramReturn)
  | invoke (ctx : ProgramContext)
  | consumed (consumed all : Nat)
deriving DecidableEq

/-- The error type of `log_parser.rs` (`enum Error`); `badLogLine` also stands
for the lexer-produced items of the `bind_events` input iterator. -/
inductive LogError where
  | badLogLine (line : String)
  | unexpectedProgramResult (index : Nat) (program_id : Pubkey)
      (expected_program : Option Pubkey) (level : Option Level)
  | errorLog (program_id : Pubkey) (err : String) (index : Nat)
  | errorToCompleteLog (err : String) (index : Nat)
  | missplaceConsumed (consumed_program_id : Pubkey)
      (expected_program : Option Pubkey) (index : Nat)
  | emptyInvokeLogContext (index : Nat)
deriving DecidableEq

/-- The output `HashMap<ProgramContext, Vec<ProgramLog>>`, modelled as a
key-unique association list. -/
abbrev EventMap := List (ProgramContext × List ProgramLog)

def findEntry : EventMap → ProgramContext → Option (List ProgramLog)
  | [], _ => none
  | (k, v) :: rest, ctx => if k = ctx then some v else findEntry rest ctx

/-- `result.entry(ctx).or_default()` — inserts an empty entry when absent. -/
def entryOrDefault : EventMap → ProgramContext → EventMap
  | [], ctx => [(ctx, [])]
  | (k, v) :: rest, ctx =>
      if k = ctx then (k, v) :: rest else (k, v) :: entryOrDefault rest ctx

/-- `result.entry(ctx).or_default().push(ev)`. -/
def entryPush : EventMap → ProgramContext → ProgramLog → EventMap
  | [], ctx, ev => [(ctx, [ev])]
  | (k, v) :: rest, ctx, ev =>
      if k = ctx then (k, v ++ [ev]) :: rest else (k, v) :: entryPush rest ctx ev

def hasKey (m : EventMap) (ctx : ProgramContext) : Prop :=
  findEntry m ctx ≠ none

instance (m : EventMap) (ctx : ProgramContext) : Decidable (hasKey m ctx) := by
  unfold hasKey; infer_instance

/-- The loop state of `bind_events`: the invocation stack (top at the head,
i.e. the reverse of the Rust `Vec`), the per-program `call_index_map`
(total function with default `0`, as `entry(p).or_insert(0)`), and the
output map. -/
structure BindState where
  stack : List ProgramContext
  callIndex : Pubkey → Nat
  result : EventMap

def initState : BindState := ⟨[], fun _ => 0, []⟩

/-- `get_and_update_call_index`: read the counter, then increment it. -/
def bumpCallIndex (f : Pubkey → Nat) (p : Pubkey) : Pubkey → Nat :=
  fun q => if q = p then f p + 1 else f q

/-- Result of one iteration of the `bind_events` loop: continue, or stop
cleanly (the `break` on `Log::Truncated`). -/
inductive StepOut where
  | cont (st : BindState)
  | stop (st : BindState)

/-- One iteration of the `for (index, log)` loop of `bind_events`
(`src/log_parser.rs`). -/
def step (st : BindState) (index : Nat) : Log → Except LogError StepOut
  | .truncated => .ok (.stop st)
  | .programInvoke program_id level =>
      let newCtx : ProgramContext := ⟨program_id, st.callIndex program_id, level⟩
      let res1 := match st.stack with
        | [] => st.result
        | ctx :: _ => entryPush st.result ctx (.invoke newCtx)
      .ok (.cont ⟨newCtx :: st.stack, bumpCallIndex st.callIndex program_id,
                  entryOrDefault res1 newCtx⟩)
  | .programResult finished none =>
      match st.stack with
      | [] => .error (.unexpectedProgramResult index finished none none)
      | ctx :: rest =>
          if ctx.program_id = finished then
            .ok (.cont ⟨rest, st.callIndex, st.result⟩)
          else
            .error (.unexpectedProgramResult index ctx.program_id
              (some finished) (some ctx.invoke_level))
  | .programResult program_id (some err) => .error (.errorLog program_id err index)
  | .programFailedComplete err => .error (.errorToCompleteLog err index)
  | .programLog l =>
      match st.stack with
      | [] => .error (.emptyInvokeLogContext index)
      | ctx :: _ => .ok (.cont { st with result := entryPush st.result ctx (.log l) })
  | .programReturn program_id data =>
      match st.stack with
      | [] => .error (.emptyInvokeLogContext index)
      | ctx :: _ =>
          .ok (.cont { st with result := entryPush st.result ctx (.ret ⟨program_id, data⟩) })
  | .programData data =>
      match st.stack with
      | [] => .error (.emptyInvokeLogContext index)
      | ctx :: _ => .ok (.cont { st with result := entryPush st.result ctx (.data data) })
  | .programConsumed program_id consumed all =>
      match st.stack with
      | [] => .error (.emptyInvokeLogContext index)
      | ctx :: _ =>
          if program_id = ctx.program_id then
            .ok (.cont { st with result := entryPush st.result ctx (.consumed consumed all) })
          else
            .error (.missplaceConsumed program_id (some ctx.program_id) index)

/-- The `bind_events` loop from state `st`, with `index` the enumeration
counter; an `Except.error` input item is the `log?` early return. -/
def runFrom (st : BindState) (index : Nat) :
    List (Except LogError Log) → Except LogError BindState
  | [] => .ok st
  | .error e :: _ => .error e
  | .ok l :: rest =>
      match step st index l with
      | .error e => .error e
      | .ok (.stop st') => .ok st'
      | .ok (.cont st') => runFrom st' (index + 1) rest

/-- `bind_events` of `src/log_parser.rs`. -/
def bindEvents (input : List (Except LogError Log)) : Except LogError EventMap :=
  (runFrom initState 0 input).map BindState.result

/-- Lines invoking a given program are counted by `invokeCount` (used to
state the call-index discipline). -/
def invokeCount (P : Pubkey) : List (Except LogError Log) → Nat
  | [] => 0
  | .ok (.programInvoke q _) :: rest => (if q = P then 1 else 0) + invokeCount P rest
  | _ :: rest => invokeCount P rest

/-- The portion of the input that `bind_events` actually parses: everything
before the first `Log truncated` line. -/
def parsedPart (input : List (Except LogError Log)) : List (Except LogError Log) :=
  input.takeWhile (fun x => decide (x ≠ Except.ok Log.truncated))

/-- Per-line contribution to the invoke counter of program `P`. -/
def invokeOne (P : Pubkey) : Log → Nat
  | .programInvoke q _ => if q = P then 1 else 0
  | _ => 0

/-- Loop invariant of `bind_events`: the call indices present in the output
for a program are exactly those below its counter, and every stacked context
carries a call index below the counter of its program. -/
def Inv (st : BindState) : Prop :=
  (∀ P ci, (∃ lvl, hasKey st.result ⟨P, ci, lvl⟩) ↔ ci < st.callIndex P)
  ∧ (∀ ctx ∈ st.stack, ctx.call_index < st.callIndex ctx.program_id)

/-- `AccountMeta` of `solana_sdk::instruction` as used by the binder. -/
structure AccountMeta where
  pubkey : Pubkey
  is_signer : Bool
  is_writable : Bool
deriving DecidableEq

/-- `Instruction` of `solana_sdk::instruction` as stored by the binder. -/
structure Instruction where
  program_id : Pubkey
  accounts : List AccountMeta
  data : List Byte
deriving DecidableEq

/-- `struct InstructionContext` of `instruction_parser.rs`. -/
structure InstructionContext where
  program_id : Pubkey
  call_index : Nat
deriving DecidableEq

/-- The relevant variants of the `transaction_parser.rs` /
`instruction_parser.rs` error enums. -/
inductive TxError where
  | instructionLogsConsistencyError (ctx : InstructionContext)
  | errorWhileDecodeTransaction
  | emptyMetaInTransaction
  | emptyInnerInstructionInTransaction
  | errorWhileDecodeData
  | parsedInnerInstructionNotSupported
  | parseIntError
deriving DecidableEq

/-- Binder output `HashMap<InstructionContext, (Instruction, Option<Pubkey>)>`,
modelled as a key-unique association list. -/
abbrev IxMap := List (InstructionContext × (Instruction × Option Pubkey))

/-- `HashMap::remove`: returns the removed value and the remaining map. -/
def removeIx : IxMap → InstructionContext → Option ((Instruction × Option Pubkey) × IxMap)
  | [], _ => none
  | (k, v) :: rest, key =>
      if k = key then some (v, rest)
      else
        match removeIx rest key with
        | none => none
        | some (v', rest') => some (v', (k, v) :: rest')

/-- The joiner fold of `bind_transaction_instructions_logs`
(`src/transaction_parser.rs`): for each reconstructor entry, look up and
remove the binder entry with the same `(program_id, call_index)` and accept
only when the outer/invoke-level consistency condition holds. -/
def bindMeta : List (ProgramContext × List ProgramLog) → IxMap →
    Except TxError (List (ProgramContext × (Instruction × List ProgramLog)))
  | [], _ => .ok []
  | (ctx, events) :: rest, instructions =>
      let ixCtx : InstructionContext := ⟨ctx.program_id, ctx.call_index⟩
      match removeIx instructions ixCtx with
      | none => .error (.instructionLogsConsistencyError ixCtx)
      | some ((ix, outerIx), instructions') =>
          if (outerIx = none ∧ ctx.invoke_level.val = 1)
              ∨ (outerIx ≠ none ∧ ctx.invoke_level.val ≠ 1) then
            match bindMeta rest instructions' with
            | .error e => .error e
            | .ok tail => .ok ((ctx, (ix, events)) :: tail)
          else .error (.instructionLogsConsistencyError ixCtx)

/-- A compiled top-level instruction frame of the decoded message. -/
structure CompiledInstruction where
  program_id_index : Nat
  accounts : List Nat
  data : List Byte
deriving DecidableEq

/-- An inner-instruction frame (`UiInstruction`): `compiled` carries the
base58 decode result of its data (`none` = decode failure), `parsed` is the
pre-decoded variant the binder rejects. -/
inductive UiInnerIx where
  | compiled (program_id_index : Nat) (accounts : List Nat)
      (dataDecoded : Option (List Byte))
  | parsed
deriving DecidableEq

/-- `UiInnerInstructions { index, instructions }`. -/
structure InnerInstructions where
  index : Nat
  instructions : List UiInnerIx
deriving DecidableEq

/-- The decoded message as consumed by `bind_instructions`: the static keys
and the two flag oracles `is_signer` / `is_maybe_writable`. -/
structure DecodedMessage where
  static_account_keys : List Pubkey
  is_signer : Nat → Bool
  is_maybe_writable : Nat → Bool
  instructions : List CompiledInstruction

/-- `iter().map(|ui_ix| (index, instructions)).collect::<HashMap>()`: on a
duplicate index the later entry wins. -/
def lookupLast (l : List InnerInstructions) (i : Nat) : Option (List UiInnerIx) :=
  match l with
  | [] => none
  | inner :: rest =>
      match lookupLast rest i with
      | some r => some r
      | none => if inner.index = i then some inner.instructions else none

/-- `HashMap::insert` (overwrites). -/
def insertIx (m : IxMap) (k : InstructionContext) (v : Instruction × Option Pubkey) : IxMap :=
  match m with
  | [] => [(k, v)]
  | (k', v') :: rest => if k' = k then (k', v) :: rest else (k', v') :: insertIx rest k v

/-- Building the `AccountMeta` vector of one instruction: for each account
position `i`, `pubkey := accounts[i]`, `is_signer := msg.is_signer(i)`,
`is_writable := msg.is_maybe_writable(i)`; an out-of-bounds index is the
Rust `accounts[index]` panic (`none`). -/
def buildMetas (accounts : List Pubkey) (sgn wrt : Nat → Bool) :
    List Nat → Option (List AccountMeta)
  | [] => some []
  | i :: rest =>
      match accounts[i]? with
      | none => none
      | some pk =>
          match buildMetas accounts sgn wrt rest with
          | none => none
          | some tl => some (⟨pk, sgn i, wrt i⟩ :: tl)

/-- The inner loop of `bind_instructions` over the invokes of one top-level
instruction (`src/instruction_parser.rs`). -/
def bindInner (accounts : List Pubkey) (sgn wrt : Nat → Bool) (outerPid : Pubkey)
    (f : Pubkey → Nat) (res : IxMap) :
    List UiInnerIx → Option (Except TxError ((Pubkey → Nat) × IxMap))
  | [] => some (.ok (f, res))
  | .parsed :: _ => some (.error .parsedInnerInstructionNotSupported)
  | .compiled pidx accIdxs dataDec :: rest =>
      match accounts[pidx]? with
      | none => none
      | some pid =>
          match buildMetas accounts sgn wrt accIdxs with
          | none => none
          | some metas =>
              match dataDec with
              | none => some (.error .errorWhileDecodeData)
              | some data =>
                  bindInner accounts sgn wrt outerPid (bumpCallIndex f pid)
                    (insertIx res ⟨pid, f pid⟩ (⟨pid, metas, data⟩, some outerPid)) rest

/-- The top-level loop of `bind_instructions` over
`msg.instructions().iter().enumerate()`. -/
def bindTop (accounts : List Pubkey) (sgn wrt : Nat → Bool)
    (inner : List InnerInstructions) (f : Pubkey → Nat) (res : IxMap) (ixIndex : Nat) :
    List CompiledInstruction → Option (Except TxError ((Pubkey → Nat) × IxMap))
  | [] => some (.ok (f, res))
  | cix :: rest =>
      match accounts[cix.program_id_index]? with
      | none => none
      | some pid =>
          match buildMetas accounts sgn wrt cix.accounts with
          | none => none
          | some metas =>
              let res1 := insertIx res ⟨pid, f pid⟩ (⟨pid, metas, cix.data⟩, none)
              let f1 := bumpCallIndex f pid
              match lookupLast inner ixIndex with
              | none => bindTop accounts sgn wrt inner f1 res1 (ixIndex + 1) rest
              | some invokes =>
                  match bindInner accounts sgn wrt pid f1 res1 invokes with
                  | none => none
                  | some (.error e) => some (.error e)
                  | some (.ok (f2, res2)) =>
                      bindTop accounts sgn wrt inner f2 res2 (ixIndex + 1) rest

/-- `bind_instructions` of `src/instruction_parser.rs`, from the decoded
message onward (transaction decode and signature pre-checks error out before
any account flag is assigned and are not modelled).  The effective account
vector is `static_keys ++ loaded_writable ++ loaded_readonly`; a missing
`meta.inner_instructions` is `EmptyInnerInstructionInTransaction`. -/
def bindInstructions (msg : DecodedMessage) (loadedW loadedR : List Pubkey)
    (innerOpt : Option (List InnerInstructions)) : Option (Except TxError IxMap) :=
  let accounts := msg.static_account_keys ++ loadedW ++ loadedR
  match innerOpt with
  | none => some (.error .emptyInnerInstructionInTransaction)
  | some inner =>
      match bindTop accounts msg.is_signer msg.is_maybe_writable inner
          (fun _ => 0) [] 0 msg.instructions with
      | none => none
      | some (.error e) => some (.error e)
      | some (.ok (_, res)) => some (.ok res)

/-- `is_decomposable` of `src/transaction_parser.rs`: the dispatcher guard.
`none` models the `split_at(8)` panic on data shorter than 8 bytes, which is
reached only when both program-id conjuncts hold (Rust `&&` short-circuit). -/
def isDecomposable (owner : Pubkey) (disc : List Byte)
    (program_ctx : ProgramContext) (raw_ix : Instruction) : Option Bool :=
  if program_ctx.program_id = owner then
    if owner = raw_ix.program_id then
      if 8 ≤ raw_ix.data.length then some (decide (disc = raw_ix.data.take 8))
      else none
    else some false
  else some false

/-- `parse_instruction` of `src/instruction_parser.rs`: splits the 8-byte
discriminator first (panicking on shorter data, outer `none`), then returns
`none` (skip) unless owner and discriminator match, else the deserialized
payload. -/
def parseIx {T : Type} (owner : Pubkey) (disc : List Byte)
    (deser : List Byte → Except String T) (ix : Instruction) :
    Option (Option (Except String T)) :=
  if 8 ≤ ix.data.length then
    some (if owner = ix.program_id ∧ disc = ix.data.take 8
          then some (deser (ix.data.drop 8)) else none)
  else none

/-- `struct WalletContext` of `transaction_parser.rs`. -/
structure WalletContext where
  wallet_address : Pubkey
  wallet_owner : Option Pubkey
  token_mint : Pubkey
deriving DecidableEq

/-- A `UiTransactionTokenBalance` as consumed by `get_assets_changes`:
`owner` and `mint` are carried already decoded, `amountParsed` is the result
of `ui_token_amount.amount.parse::<i128>()` (`none` = `ParseIntError`). -/
structure UiTokenBalance where
  account_index : Nat
  owner : Option Pubkey
  mint : Pubkey
  amountParsed : Option Int
deriving DecidableEq

/-- `WalletContext::try_new`: `wallet_address := accounts[account_index]`
(out of bounds = panic, outer `none`). -/
def walletContextTryNew (b : UiTokenBalance) (accounts : List Pubkey) :
    Option WalletContext :=
  match accounts[b.account_index]? with
  | none => none
  | some addr => some ⟨addr, b.owner, b.mint⟩

/-- `try_parse_balance` of `get_assets_changes`. -/
def tryParseBalance (accounts : List Pubkey) (b : UiTokenBalance) :
    Option (Except TxError (WalletContext × Int)) :=
  match walletContextTryNew b accounts with
  | none => none
  | some ctx =>
      match b.amountParsed with
      | none => some (.error .parseIntError)
      | some amt => some (.ok (ctx, amt))

/-- `HashMap<WalletContext, i128>` as a key-unique association list. -/
abbrev BalanceMap := List (WalletContext × Int)

def findAmount : BalanceMap → WalletContext → Option Int
  | [], _ => none
  | (k, v) :: rest, ctx => if k = ctx then some v else findAmount rest ctx

/-- `HashMap::insert` (overwrites) for balance maps. -/
def insertAmount (m : BalanceMap) (ctx : WalletContext) (amt : Int) : BalanceMap :=
  match m with
  | [] => [(ctx, amt)]
  | (k, v) :: rest =>
      if k = ctx then (k, amt) :: rest else (k, v) :: insertAmount rest ctx amt

/-- `*balances_diff.entry(ctx).or_insert(0) -= pre_balance`. -/
def entrySubtract (m : BalanceMap) (ctx : WalletContext) (amt : Int) : BalanceMap :=
  match m with
  | [] => [(ctx, 0 - amt)]
  | (k, v) :: rest =>
      if k = ctx then (k, v - amt) :: rest else (k, v) :: entrySubtract rest ctx amt

/-- `post.iter().map(try_parse_balance).collect::<Result<HashMap, _>>()`. -/
def collectPost (accounts : List Pubkey) (acc : BalanceMap) :
    List UiTokenBalance → Option (Except TxError BalanceMap)
  | [] => some (.ok acc)
  | b :: rest =>
      match tryParseBalance accounts b with
      | none => none
      | some (.error e) => some (.error e)
      | some (.ok (ctx, amt)) => collectPost accounts (insertAmount acc ctx amt) rest

/-- The `try_fold` over `pre_token_balances` in `get_assets_changes`. -/
def subtractPre (accounts : List Pubkey) (acc : BalanceMap) :
    List UiTokenBalance → Option (Except TxError BalanceMap)
  | [] => some (.ok acc)
  | b :: rest =>
      match tryParseBalance accounts b with
      | none => none
      | some (.error e) => some (.error e)
      | some (.ok (ctx, amt)) => subtractPre accounts (entrySubtract acc ctx amt) rest

/-- `get_assets_changes` of `src/transaction_parser.rs`:
`pre.zip(post).map(build-and-subtract).unwrap_or(Ok(empty))`. -/
def getAssetsChanges (accounts : List Pubkey)
    (preTokenBalances postTokenBalances : Option (List UiTokenBalance)) :
    Option (Except TxError BalanceMap) :=
  match preTokenBalances, postTokenBalances with
  | some pre, some post =>
      (match collectPost accounts [] post with
       | none => none
       | some (.error e) => some (.error e)
       | some (.ok diff) => subtractPre accounts diff pre)
  | _, _ => some (.ok [])

/-- Per-balance resolution of `try_parse_balance` over a whole list, used to
state what the pre/post lists denote. -/
def resolveBalances (accounts : List Pubkey) :
    List UiTokenBalance → Option (Except TxError (List (WalletContext × Int)))
  | [] => some (.ok [])
  | b :: rest =>
      match tryParseBalance accounts b with
      | none => none
      | some (.error e) => some (.error e)
      | some (.ok p) =>
          match resolveBalances accounts rest with
          | none => none
          | some (.error e) => some (.error e)
          | some (.ok tl) => some (.ok (p :: tl))

/-- `EventConsumeResult` of `event_reader_service.rs` (source spelling). -/
inductive EventConsumeResult where
  | consumeSuccess
  | transactionNeeed
deriving DecidableEq

/-- Observable effects of processing one subscription message in
`listen_events`. -/
structure LiveOutcome where
  registerCalled : Bool
  fetchAttempted : Bool
  txConsumerErrored : Bool
deriving DecidableEq

/-- The per-message body of the `listen_events` loop
(`src/event_reader_service.rs`): skip if registered; run `event_consumer`;
on `TransactionNeeed` fetch (a fetch error `continue`s without registering);
then run `transaction_consumer`, whose error is logged only — the signature
is registered afterwards in both branches. -/
def processSubscriptionMessage {Tx E : Type}
    (isRegistered : Bool)
    (eventConsumer : Except E EventConsumeResult)
    (fetchResult : Except E Tx)
    (txConsumer : Tx → Except E Unit) : LiveOutcome :=
  if isRegistered then ⟨false, false, false⟩
  else
    match eventConsumer with
    | .ok .consumeSuccess => ⟨true, false, false⟩
    | .ok .transactionNeeed =>
        (match fetchResult with
         | .error _ => ⟨false, true, false⟩
         | .ok tx =>
             match txConsumer tx with
             | .error _ => ⟨true, true, true⟩
             | .ok _ => ⟨true, true, false⟩)
    | .error _ => ⟨false, false, false⟩

/-- How one spawned resync chunk task is observed at the join point. -/
inductive ChunkJoinOutcome where
  | okTrue
  | okFalse
  | okErr
  | joinErr
deriving DecidableEq

/-- The join loop over the chunk tasks in `resync_events`: `okTrue` keeps
everything, `okFalse` keeps `tasks_success` but `take`s `last_transaction`,
a chunk `Err` or a join error clears `tasks_success`. -/
def joinChunkTasks {Sig : Type} : List ChunkJoinOutcome → Option Sig → Bool × Option Sig
  | [], lt => (true, lt)
  | r :: rest, lt =>
      match r with
      | .okTrue => joinChunkTasks rest lt
      | .okFalse => joinChunkTasks rest none
      | .okErr => ((joinChunkTasks rest lt).1 && false, (joinChunkTasks rest lt).2)
      | .joinErr => ((joinChunkTasks rest lt).1 && false, (joinChunkTasks rest lt).2)

/-- `set_last_resynced_transaction`: drain the rollback cell; its content
supersedes the candidate cursor; returns the cursor value actually written
(`none` = no write). -/
def setLastResynced {Sig : Type} (rollback lastTransaction : Option Sig) : Option Sig :=
  match rollback with
  | some r => some r
  | none => lastTransaction

/-- The commit phase of one `resync_events` tick with a non-empty candidate
batch: join all chunk tasks; on `tasks_success` write the cursor (via the
rollback drain) and then call `resync_ptr_setter`; otherwise `continue`
without either.  Returns `(cursor value written, ptr-setter called?)`. -/
def resyncTickCommit {Sig : Type} (results : List ChunkJoinOutcome)
    (lastTransaction rollback : Option Sig) : Option Sig × Bool :=
  let joined := joinChunkTasks results lastTransaction
  if joined.1 then (setLastResynced rollback joined.2, true)
  else (none, false)

/-- Per-signature outcomes inside one resync chunk task. -/
structure SigOutcome (E : Type) where
  fetch : Except E Unit
  consume : Except E Unit
  register : Except E Unit

/-- The body of one spawned chunk task in `resync_events`: a fetch error
marks the chunk failed and skips the signature (also its registration); a
consumer error marks the chunk failed; `register_transaction` errors abort
the chunk with `Err`. -/
def runChunk {E : Type} (flag : Bool) : List (SigOutcome E) → Except E Bool
  | [] => .ok flag
  | sp :: rest =>
      match sp.fetch with
      | .error _ => runChunk false rest
      | .ok _ =>
          match sp.register with
          | .error e => .error e
          | .ok _ =>
              runChunk (match sp.consume with | .error _ => false | .ok _ => flag) rest

/-- `get_transaction_by_signature` of `src/event_reader_service.rs` fed with
the (lazy) sequence of per-attempt outcomes.  Returns the propagated result,
the number of fetch attempts performed and the number of sleeps; `none` when
the outcome list is exhausted while the loop would continue.  The `usize`
decrement `attempts_count -= 1` wraps modulo `2^64`. -/
def getTransactionBySignature {Tx E : Type} (attemptsCount : Nat) :
    List (Except E Tx) → Option (Except E Tx × Nat × Nat)
  | [] => none
  | .ok tx :: _ => some (.ok tx, 1, 0)
  | .error e :: rest =>
      let ac := (attemptsCount + (2 ^ 64 - 1)) % 2 ^ 64
      if ac = 0 then some (.error e, 1, 0)
      else
        match getTransactionBySignature ac rest with
        | none => none
        | some (r, a, s) => some (r, a + 1, s + 1)

instance : DecidableEq (InstructionContext × (Instruction × Option Pubkey)) :=
  inferInstance

instance : DecidableEq IxMap := List.hasDecEq

instance : DecidableEq (WalletContext × Int) := inferInstance

instance : DecidableEq BalanceMap := List.hasDecEq

/-- The per-instruction flag specification established by the binder. -/
def FlagSpec (accounts : List Pubkey) (sgn wrt : Nat → Bool) (ix : Instruction) : Prop :=
  ∀ meta ∈ ix.accounts, ∃ i, accounts[i]? = some meta.pubkey ∧
    meta.is_signer = sgn i ∧ meta.is_writable = wrt i

theorem step_stop {st st' : BindState} {idx : Nat} {l : Log}
    (h : step st idx l = .ok (.stop st')) : l = .truncated ∧ st' = st := by
  cases l with
  | truncated => simp [step] at h; exact ⟨rfl, h.symm⟩
  | programInvoke p lv => simp [step] at h
  | programResult p err =>
    cases err with
    | none => cases hs : st.stack with
      | nil => simp [step, hs] at h
      | cons c rest => simp [step, hs] at h; split at h <;> simp_all
    | some e => simp [step] at h
  | programFailedComplete e => simp [step] at h
  | programLog s => cases hs : st.stack <;> simp [step, hs] at h
  | programData s => cases hs : st.stack <;> simp [step, hs] at h
  | programReturn p s => cases hs : st.stack <;> simp [step, hs] at h
  | programConsumed p c a =>
    cases hs : st.stack with
    | nil => simp [step, hs] at h
    | cons ctx rest => simp [step, hs] at h; split at h <;> simp_all

theorem hasKey_entryPush {m : EventMap} {k ctx : ProgramContext} {v : ProgramLog} :
    hasKey (entryPush m k v) ctx ↔ ctx = k ∨ hasKey m ctx := by
  induction m with
  | nil =>
    simp only [entryPush, hasKey, findEntry]
    split <;> simp_all [eq_comm]
  | cons hd tl ih =>
    obtain ⟨k', v'⟩ := hd
    simp only [entryPush]
    split
    · subst k
      simp only [hasKey, findEntry]
      split <;> simp_all [eq_comm]
    · simp only [hasKey, findEntry] at ih ⊢
      split <;> simp_all

theorem hasKey_entryOrDefault {m : EventMap} {k ctx : ProgramContext} :
    hasKey (entryOrDefault m k) ctx ↔ ctx = k ∨ hasKey m ctx := by
  induction m with
  | nil =>
    simp only [entryOrDefault, hasKey, findEntry]
    split <;> simp_all [eq_comm]
  | cons hd tl ih =>
    obtain ⟨k', v'⟩ := hd
    simp only [entryOrDefault]
    split
    · subst k
      simp only [hasKey, findEntry]
      split <;> simp_all [eq_comm]
    · simp only [hasKey, findEntry] at ih ⊢
      split <;> simp_all

theorem runFrom_append {ys : List (Except LogError Log)}
    (xs : List (Except LogError Log)) {st st' : BindState} {idx : Nat}
    (hnt : Except.ok Log.truncated ∉ xs)
    (h : runFrom st idx xs = .ok st') :
    runFrom st idx (xs ++ ys) = runFrom st' (idx + xs.length) ys := by
  induction xs generalizing st idx with
  | nil => simp only [runFrom] at h; cases h; simp [runFrom]
  | cons x xs ih =>
    cases x with
    | error e => simp [runFrom] at h
    | ok l =>
      cases hs : step st idx l with
      | error e => simp [runFrom, hs] at h
      | ok so =>
        cases so with
        | stop st1 =>
          obtain ⟨rfl, rfl⟩ := step_stop hs
          exact absurd (List.mem_cons_self _ _) hnt
        | cont st1 =>
          simp only [runFrom, hs] at h
          have hnt' : Except.ok Log.truncated ∉ xs := fun hmem =>
            hnt (List.mem_cons_of_mem _ hmem)
          simp only [List.cons_append, runFrom, hs, List.append_eq]
          rw [ih hnt' h]
          congr 1
          simp only [List.length_cons]
          omega

theorem runFrom_parsedPart (input : List (Except LogError Log))
    (st : BindState) (idx : Nat) :
    runFrom st idx (parsedPart input) = runFrom st idx input := by
  induction input generalizing st idx with
  | nil => rfl
  | cons x xs ih =>
    cases x with
    | error e => simp [parsedPart, List.takeWhile, runFrom]
    | ok l =>
      by_cases hl : l = Log.truncated
      · subst hl
        simp [parsedPart, List.takeWhile, runFrom, step]
      · have hx : (fun x : Except LogError Log =>
            decide (x ≠ Except.ok Log.truncated)) (Except.ok l) = true := by
          simp [hl]
        simp only [parsedPart, List.takeWhile, hx]
        cases hs : step st idx l with
        | error e => simp [runFrom, hs]
        | ok so =>
          cases so with
          | stop st1 => exact absurd (step_stop hs).1 hl
          | cont st1 => simp only [runFrom, hs]; exact ih st1 (idx + 1)

theorem not_truncated_mem_parsedPart (input : List (Except LogError Log)) :
    Except.ok Log.truncated ∉ parsedPart input := by
  intro hmem
  have := List.mem_takeWhile_imp hmem
  simp at this

theorem le_bump (f : Pubkey → Nat) (q P : Pubkey) : f P ≤ bumpCallIndex f q P := by
  unfold bumpCallIndex
  split
  · rename_i hPq; subst hPq; omega
  · exact le_rfl

theorem invokeCount_cons_ok (P : Pubkey) (l : Log) (xs : List (Except LogError Log)) :
    invokeCount P (.ok l :: xs) = invokeOne P l + invokeCount P xs := by
  cases l <;> simp [invokeCount, invokeOne]

theorem inv1_entryPush {st : BindState} (hInv : Inv st) {ctx0 : ProgramContext}
    (hmem : ctx0 ∈ st.stack) (ev : ProgramLog) :
    ∀ P ci, (∃ lvl, hasKey (entryPush st.result ctx0 ev) ⟨P, ci, lvl⟩) ↔
      ci < st.callIndex P := by
  intro P ci
  constructor
  · rintro ⟨lvl, hk⟩
    rcases hasKey_entryPush.mp hk with heq | hold
    · have h2 := hInv.2 ctx0 hmem
      rw [← heq] at h2
      exact h2
    · exact (hInv.1 P ci).mp ⟨lvl, hold⟩
  · intro hlt
    obtain ⟨lvl, hk⟩ := (hInv.1 P ci).mpr hlt
    exact ⟨lvl, hasKey_entryPush.mpr (Or.inr hk)⟩

theorem step_cont_invariants {st st1 : BindState} {idx : Nat} {l : Log}
    (hInv : Inv st) (h : step st idx l = .ok (.cont st1)) :
    Inv st1
    ∧ (∀ P, st1.callIndex P = st.callIndex P + invokeOne P l)
    ∧ (∀ ctx, hasKey st.result ctx → hasKey st1.result ctx)
    ∧ (∀ P lvl, l = .programInvoke P lvl →
        hasKey st1.result ⟨P, st.callIndex P, lvl⟩) := by
  cases l with
  | truncated => simp [step] at h
  | programInvoke q lv =>
    have hres : ∀ c, hasKey st1.result c ↔
        (c = (⟨q, st.callIndex q, lv⟩ : ProgramContext) ∨ hasKey st.result c ∨
          (∃ ctx0 rest, st.stack = ctx0 :: rest ∧ c = ctx0)) ∧ True := by
      intro c; exact Iff.rfl.trans (by
        cases hstk : st.stack with
        | nil =>
          simp only [step, hstk] at h
          obtain rfl : st1 = _ := (by
            injection h with h1; injection h1 with h2; exact h2.symm)
          simp only [hasKey_entryOrDefault]
          constructor
          · rintro (h | h) <;> simp_all
          · rintro ⟨h | h | ⟨c0, r0, hcr, _⟩, -⟩ <;> simp_all
        | cons ctx0 rest =>
          simp only [step, hstk] at h
          obtain rfl : st1 = _ := (by
            injection h with h1; injection h1 with h2; exact h2.symm)
          simp only [hasKey_entryOrDefault, hasKey_entryPush]
          constructor
          · rintro (h | h | h) <;> simp_all
          · rintro ⟨h | h | ⟨c0, r0, hcr, hc⟩, -⟩ <;> simp_all)
    have hstack1 : st1.stack = (⟨q, st.callIndex q, lv⟩ : ProgramContext) :: st.stack := by
      cases hstk : st.stack <;> simp only [step, hstk] at h <;>
        (injection h with h1; injection h1 with h2; rw [← h2])
    have hcall1 : st1.callIndex = bumpCallIndex st.callIndex q := by
      cases hstk : st.stack <;> simp only [step, hstk] at h <;>
        (injection h with h1; injection h1 with h2; rw [← h2])
    refine ⟨⟨?_, ?_⟩, ?_, ?_, ?_⟩
    · intro P ci
      rw [hcall1]
      constructor
      · rintro ⟨lvl, hk⟩
        rcases ((hres _).mp hk).1 with heq | hold | ⟨c0, r0, hcr, hc⟩
        · have : P = q ∧ ci = st.callIndex q := by
            injection heq with h1 h2 h3; exact ⟨h1, h2⟩
          obtain ⟨rfl, rfl⟩ := this
          simp [bumpCallIndex]
        · have := (hInv.1 P ci).mp ⟨lvl, hold⟩
          exact lt_of_lt_of_le this (le_bump _ _ _)
        · have h2 := hInv.2 c0 (hcr ▸ List.mem_cons_self _ _)
          rw [← hc] at h2
          exact lt_of_lt_of_le h2 (le_bump _ _ _)
      · intro hlt
        by_cases hPq : P = q
        · subst hPq
          rw [show bumpCallIndex st.callIndex P P = st.callIndex P + 1 by
            simp [bumpCallIndex]] at hlt
          rcases Nat.lt_succ_iff_lt_or_eq.mp hlt with hlt' | rfl
          · obtain ⟨lvl, hk⟩ := (hInv.1 P ci).mpr hlt'
            exact ⟨lvl, (hres _).mpr ⟨Or.inr (Or.inl hk), trivial⟩⟩
          · exact ⟨lv, (hres _).mpr ⟨Or.inl rfl, trivial⟩⟩
        · rw [show bumpCallIndex st.callIndex q P = st.callIndex P by
            simp [bumpCallIndex, hPq]] at hlt
          obtain ⟨lvl, hk⟩ := (hInv.1 P ci).mpr hlt
          exact ⟨lvl, (hres _).mpr ⟨Or.inr (Or.inl hk), trivial⟩⟩
    · intro ctx hmem
      rw [hstack1] at hmem
      rw [hcall1]
      rcases List.mem_cons.mp hmem with rfl | hmem'
      · simp [bumpCallIndex]
      · exact lt_of_lt_of_le (hInv.2 ctx hmem') (le_bump _ _ _)
    · intro P
      rw [hcall1]
      by_cases hPq : P = q
      · subst hPq; simp [bumpCallIndex, invokeOne]
      · simp [bumpCallIndex, hPq, invokeOne, Ne.symm hPq]
    · intro ctx hk
      exact (hres _).mpr ⟨Or.inr (Or.inl hk), trivial⟩
    · intro P lvl heq
      have : q = P ∧ lv = lvl := by injection heq with h1 h2; exact ⟨h1, h2⟩
      obtain ⟨rfl, rfl⟩ := this
      exact (hres _).mpr ⟨Or.inl rfl, trivial⟩
  | programResult p err =>
    cases err with
    | none =>
      cases hstk : st.stack with
      | nil => simp [step, hstk] at h
      | cons ctx0 rest =>
        simp only [step, hstk] at h
        split at h
        · obtain rfl : st1 = _ := (by
            injection h with h1; injection h1 with h2; exact h2.symm)
          refine ⟨⟨hInv.1, ?_⟩, fun P => by simp [invokeOne], fun c hk => hk,
            fun P lvl heq => by cases heq⟩
          intro ctx hmem
          exact hInv.2 ctx (show ctx ∈ st.stack by rw [hstk]; exact List.mem_cons_of_mem _ hmem)
        · cases h
    | some e => simp [step] at h
  | programFailedComplete e => simp [step] at h
  | programLog s =>
    cases hstk : st.stack with
    | nil => simp [step, hstk] at h
    | cons ctx0 rest =>
      simp only [step, hstk] at h
      obtain rfl : st1 = _ := (by
        injection h with h1; injection h1 with h2; exact h2.symm)
      have hmem : ctx0 ∈ st.stack := hstk ▸ List.mem_cons_self _ _
      exact ⟨⟨inv1_entryPush hInv hmem _,
          fun c hc => hInv.2 c (show c ∈ st.stack by rw [hstk]; exact hc)⟩,
        fun P => by simp [invokeOne],
        fun c hk => hasKey_entryPush.mpr (Or.inr hk),
        fun P lvl heq => by cases heq⟩
  | programData s =>
    cases hstk : st.stack with
    | nil => simp [step, hstk] at h
    | cons ctx0 rest =>
      simp only [step, hstk] at h
      obtain rfl : st1 = _ := (by
        injection h with h1; injection h1 with h2; exact h2.symm)
      have hmem : ctx0 ∈ st.stack := hstk ▸ List.mem_cons_self _ _
      exact ⟨⟨inv1_entryPush hInv hmem _,
          fun c hc => hInv.2 c (show c ∈ st.stack by rw [hstk]; exact hc)⟩,
        fun P => by simp [invokeOne],
        fun c hk => hasKey_entryPush.mpr (Or.inr hk),
        fun P lvl heq => by cases heq⟩
  | programReturn p s =>
    cases hstk : st.stack with
    | nil => simp [step, hstk] at h
    | cons ctx0 rest =>
      simp only [step, hstk] at h
      obtain rfl : st1 = _ := (by
        injection h with h1; injection h1 with h2; exact h2.symm)
      have hmem : ctx0 ∈ st.stack := hstk ▸ List.mem_cons_self _ _
      exact ⟨⟨inv1_entryPush hInv hmem _,
          fun c hc => hInv.2 c (show c ∈ st.stack by rw [hstk]; exact hc)⟩,
        fun P => by simp [invokeOne],
        fun c hk => hasKey_entryPush.mpr (Or.inr hk),
        fun P lvl heq => by cases heq⟩
  | programConsumed p c a =>
    cases hstk : st.stack with
    | nil => simp [step, hstk] at h
    | cons ctx0 rest =>
      simp only [step, hstk] at h
      split at h
      · obtain rfl : st1 = _ := (by
          injection h with h1; injection h1 with h2; exact h2.symm)
        have hmem : ctx0 ∈ st.stack := hstk ▸ List.mem_cons_self _ _
        exact ⟨⟨inv1_entryPush hInv hmem _,
            fun c hc => hInv.2 c (show c ∈ st.stack by rw [hstk]; exact hc)⟩,
          fun P => by simp [invokeOne],
          fun c hk => hasKey_entryPush.mpr (Or.inr hk),
          fun P lvl heq => by cases heq⟩
      · cases h

theorem runFrom_invariants (input : List (Except LogError Log)) :
    ∀ (st st' : BindState) (idx : Nat), Inv st →
    Except.ok Log.truncated ∉ input →
    runFrom st idx input = .ok st' →
    Inv st'
    ∧ (∀ P, st'.callIndex P = st.callIndex P + invokeCount P input)
    ∧ (∀ ctx, hasKey st.result ctx → hasKey st'.result ctx)
    ∧ (∀ i P lvl, input[i]? = some (.ok (.programInvoke P lvl)) →
        hasKey st'.result ⟨P, st.callIndex P + invokeCount P (input.take i), lvl⟩) := by
  induction input with
  | nil =>
    intro st st' idx hInv hnt h
    simp only [runFrom] at h
    cases h
    exact ⟨hInv, fun P => by simp [invokeCount], fun c hk => hk,
      fun i P lvl hget => by simp at hget⟩
  | cons x xs ih =>
    intro st st' idx hInv hnt h
    cases x with
    | error e => simp [runFrom] at h
    | ok l =>
      cases hs : step st idx l with
      | error e => simp [runFrom, hs] at h
      | ok so =>
        cases so with
        | stop st1 =>
          exact absurd ((step_stop hs).1 ▸ List.mem_cons_self _ _) hnt
        | cont st1 =>
          simp only [runFrom, hs] at h
          have hnt' : Except.ok Log.truncated ∉ xs := fun hm =>
            hnt (List.mem_cons_of_mem _ hm)
          obtain ⟨hInv1, hcnt1, hmono1, hinvk1⟩ := step_cont_invariants hInv hs
          obtain ⟨hInv', hcnt', hmono', hpos'⟩ := ih st1 st' (idx + 1) hInv1 hnt' h
          refine ⟨hInv', ?_, ?_, ?_⟩
          · intro P
            rw [hcnt' P, hcnt1 P, invokeCount_cons_ok]
            omega
          · exact fun c hk => hmono' c (hmono1 c hk)
          · intro i P lvl hget
            cases i with
            | zero =>
              simp only [List.getElem?_cons_zero, Option.some.injEq,
                Except.ok.injEq] at hget
              subst hget
              have := hinvk1 P lvl rfl
              simpa using hmono' _ this
            | succ i =>
              simp only [List.getElem?_cons_succ] at hget
              have hkey := hpos' i P lvl hget
              have harith : st.callIndex P +
                  invokeCount P ((Except.ok l :: xs).take (i + 1)) =
                  st1.callIndex P + invokeCount P (xs.take i) := by
                rw [List.take_succ_cons, invokeCount_cons_ok, hcnt1 P]
                omega
              rw [harith]
              exact hkey

/-- C3: the reconstructor draws all call indices from one per-transaction
counter shared by every invocation depth.  For any accepted input and any
program `P`: the invoke line at position `i` of the parsed portion creates
the context `(P, number of earlier P-invokes, level)`, and the call indices
present in the output for `P` are exactly `0..k-1` where `k` is the number
of `P`-invoke lines in the parsed portion of the input. -/
theorem call_index_single_counter (input : List (Except LogError Log))
    (m : EventMap) (h : bindEvents input = .ok m) (P : Pubkey) :
    (∀ i lvl, (parsedPart input)[i]? = some (.ok (.programInvoke P lvl)) →
        hasKey m ⟨P, invokeCount P ((parsedPart input).take i), lvl⟩)
    ∧ (∀ ci, (∃ lvl, hasKey m ⟨P, ci, lvl⟩) ↔ ci < invokeCount P (parsedPart input)) := by
  have hInv0 : Inv initState := by
    constructor
    · intro Q ci
      simp [initState, hasKey, findEntry]
    · intro c hc
      simp [initState] at hc
  have hrun : runFrom initState 0 (parsedPart input) = .ok ⟨[], fun _ => 0, []⟩ ∨ True := Or.inr trivial
  unfold bindEvents at h
  rw [← runFrom_parsedPart input initState 0] at h
  cases hre : runFrom initState 0 (parsedPart input) with
  | error e => rw [hre] at h; cases h
  | ok st' =>
    rw [hre] at h
    have hm : m = st'.result := by
      simp only [Except.map] at h
      injection h with h1
      exact h1.symm
    subst hm
    obtain ⟨hInv', hcnt', hmono', hpos'⟩ :=
      runFrom_invariants (parsedPart input) initState st' 0 hInv0
        (not_truncated_mem_parsedPart input) hre
    constructor
    · intro i lvl hget
      have := hpos' i P lvl hget
      simpa [initState] using this
    · intro ci
      rw [hInv'.1 P ci, hcnt' P]
      simp [initState]

/-- C3 witness: a concrete two-invoke transaction; the second invoke of the
program receives call index 1, and index 2 is absent. -/
theorem call_index_single_counter_witness :
    hasKey [(⟨pkOf 0, 0, level1⟩, [.invoke ⟨pkOf 1, 0, level2⟩]),
            (⟨pkOf 1, 0, level2⟩, []),
            (⟨pkOf 0, 1, level1⟩, [])] ⟨pkOf 0, 1, level1⟩
    ∧ ¬ (∃ lvl, hasKey [(⟨pkOf 0, 0, level1⟩, [.invoke ⟨pkOf 1, 0, level2⟩]),
            (⟨pkOf 1, 0, level2⟩, []),
            (⟨pkOf 0, 1, level1⟩, [])] ⟨pkOf 0, 2, lvl⟩) := by
  have h := call_index_single_counter
    [.ok (.programInvoke (pkOf 0) level1),
     .ok (.programInvoke (pkOf 1) level2),
     .ok (.programResult (pkOf 1) none),
     .ok (.programResult (pkOf 0) none),
     .ok (.programInvoke (pkOf 0) level1),
     .ok (.programResult (pkOf 0) none)]
    [(⟨pkOf 0, 0, level1⟩, [.invoke ⟨pkOf 1, 0, level2⟩]),
     (⟨pkOf 1, 0, level2⟩, []),
     (⟨pkOf 0, 1, level1⟩, [])]
    (by decide) (pkOf 0)
  constructor
  · have h1 := h.1 4 level1 (by decide)
    have he : invokeCount (pkOf 0)
        (List.take 4 (parsedPart
          [.ok (.programInvoke (pkOf 0) level1),
           .ok (.programInvoke (pkOf 1) level2),
           .ok (.programResult (pkOf 1) none),
           .ok (.programResult (pkOf 0) none),
           .ok (.programInvoke (pkOf 0) level1),
           .ok (.programResult (pkOf 0) none)])) = 1 := by decide
    rw [he] at h1
    exact h1
  · rintro ⟨lvl, hk⟩
    have h2 := (h.2 2).mp ⟨lvl, hk⟩
    have he : invokeCount (pkOf 0)
        (parsedPart
          [.ok (.programInvoke (pkOf 0) level1),
           .ok (.programInvoke (pkOf 1) level2),
           .ok (.programResult (pkOf 1) none),
           .ok (.programResult (pkOf 0) none),
           .ok (.programInvoke (pkOf 0) level1),
           .ok (.programResult (pkOf 0) none)]) = 2 := by decide
    rw [he] at h2
    omega

/-- C4: a `Log truncated` line stops parsing and the reconstructor returns
`Ok` with the partial map built from the lines before it, whatever follows
and even though invocations may still be open on the stack; truncation never
produces an error. -/
theorem truncation_is_success (pre suf : List (Except LogError Log))
    (m : EventMap)
    (hnt : Except.ok Log.truncated ∉ pre)
    (h : bindEvents pre = .ok m) :
    bindEvents (pre ++ Except.ok Log.truncated :: suf) = .ok m := by
  unfold bindEvents at h ⊢
  cases hre : runFrom initState 0 pre with
  | error e => rw [hre] at h; cases h
  | ok st =>
    rw [hre] at h
    have hm : m = st.result := by
      simp only [Except.map] at h
      injection h with h1
      exact h1.symm
    subst hm
    rw [runFrom_append pre hnt hre]
    simp [runFrom, step, Except.map]

/-- C4 witness: two still-open invocations at the truncation point; the
partial map with both keys is returned and the suffix is ignored. -/
theorem truncation_is_success_witness :
    bindEvents [.ok (.programInvoke (pkOf 0) level1),
                .ok (.programInvoke (pkOf 1) level2),
                .ok (.programLog "L"),
                .ok Log.truncated,
                .ok (.programFailedComplete "boom")] =
      .ok [(⟨pkOf 0, 0, level1⟩, [.invoke ⟨pkOf 1, 0, level2⟩]),
           (⟨pkOf 1, 0, level2⟩, [.log "L"])] :=
  truncation_is_success
    [.ok (.programInvoke (pkOf 0) level1),
     .ok (.programInvoke (pkOf 1) level2),
     .ok (.programLog "L")]
    [.ok (.programFailedComplete "boom")]
    [(⟨pkOf 0, 0, level1⟩, [.invoke ⟨pkOf 1, 0, level2⟩]),
     (⟨pkOf 1, 0, level2⟩, [.log "L"])]
    (by decide) (by decide)

/-- C10: a `Program return:` line is appended as a `Return` event to the
top-of-stack context regardless of whether its program id matches the
top-of-stack program id (the mismatching id is preserved in the record),
whereas a `Program ... consumed` line with a mismatching program id aborts
with `MissplaceConsumed`. -/
theorem return_line_no_owner_check (pre : List (Except LogError Log))
    (P : Pubkey) (d : String) (c a : Nat) (st : BindState)
    (ctx : ProgramContext) (rest : List ProgramContext)
    (hnt : Except.ok Log.truncated ∉ pre)
    (hrun : runFrom initState 0 pre = .ok st)
    (hstack : st.stack = ctx :: rest) :
    bindEvents (pre ++ [.ok (.programReturn P d)]) =
      .ok (entryPush st.result ctx (.ret ⟨P, d⟩))
    ∧ (P ≠ ctx.program_id →
        bindEvents (pre ++ [.ok (.programConsumed P c a)]) =
          .error (.missplaceConsumed P (some ctx.program_id) pre.length)) := by
  constructor
  · unfold bindEvents
    rw [runFrom_append pre hnt hrun]
    simp [runFrom, step, hstack, Except.map]
  · intro hne
    unfold bindEvents
    rw [runFrom_append pre hnt hrun]
    simp [runFrom, step, hstack, hne, Except.map]

/-- C10 witness: a return line naming program `pkOf 1` inside an invocation
of `pkOf 0` is accepted and recorded verbatim, while the same mismatch on a
consumed line is an error. -/
theorem return_line_no_owner_check_witness :
    bindEvents [.ok (.programInvoke (pkOf 0) level1),
                .ok (.programReturn (pkOf 1) "ret")] =
      .ok [(⟨pkOf 0, 0, level1⟩, [.ret ⟨pkOf 1, "ret"⟩])]
    ∧ bindEvents [.ok (.programInvoke (pkOf 0) level1),
                  .ok (.programConsumed (pkOf 1) 3 5)] =
        .error (.missplaceConsumed (pkOf 1) (some (pkOf 0)) 1) := by
  have h := return_line_no_owner_check
    [.ok (.programInvoke (pkOf 0) level1)] (pkOf 1) "ret" 3 5
    ⟨[⟨pkOf 0, 0, level1⟩], bumpCallIndex (fun _ => 0) (pkOf 0),
      [(⟨pkOf 0, 0, level1⟩, [])]⟩
    ⟨pkOf 0, 0, level1⟩ []
    (by decide) rfl rfl
  exact ⟨h.1, h.2 (by decide)⟩

theorem removeIx_mem : ∀ {b : IxMap} {key : InstructionContext}
    {v : Instruction × Option Pubkey} {rest' : IxMap},
    removeIx b key = some (v, rest') → (key, v) ∈ b := by
  intro b
  induction b with
  | nil => intro key v rest' h; simp [removeIx] at h
  | cons hd tl ih =>
    intro key v rest' h
    obtain ⟨k, v0⟩ := hd
    simp only [removeIx] at h
    split at h
    · rename_i heq
      injection h with h1
      injection h1 with h2 h3
      subst heq; subst h2
      exact List.mem_cons_self _ _
    · cases hr : removeIx tl key with
      | none => rw [hr] at h; cases h
      | some p =>
        obtain ⟨v', rest''⟩ := p
        rw [hr] at h
        injection h with h1
        injection h1 with h2 h3
        subst h2
        exact List.mem_cons_of_mem _ (ih hr)

theorem removeIx_subset : ∀ {b : IxMap} {key : InstructionContext}
    {v : Instruction × Option Pubkey} {rest' : IxMap},
    removeIx b key = some (v, rest') → ∀ x ∈ rest', x ∈ b := by
  intro b
  induction b with
  | nil => intro key v rest' h; simp [removeIx] at h
  | cons hd tl ih =>
    intro key v rest' h x hx
    obtain ⟨k, v0⟩ := hd
    simp only [removeIx] at h
    split at h
    · injection h with h1
      injection h1 with h2 h3
      subst h3
      exact List.mem_cons_of_mem _ hx
    · cases hr : removeIx tl key with
      | none => rw [hr] at h; cases h
      | some p =>
        obtain ⟨v', rest''⟩ := p
        rw [hr] at h
        injection h with h1
        injection h1 with h2 h3
        subst h3
        rcases List.mem_cons.mp hx with rfl | hx'
        · exact List.mem_cons_self _ _
        · exact List.mem_cons_of_mem _ (ih hr x hx')

theorem joinCond_iff (o : Option Pubkey) (n : Nat) :
    ((o = none ∧ n = 1) ∨ (o ≠ none ∧ n ≠ 1)) ↔ ((o = none) ↔ n = 1) := by
  cases o <;> by_cases hn : n = 1 <;> simp [hn]

/-- C5: the joiner looks up and removes the binder entry keyed by
`(program_id, call_index)` for each reconstructor context, fails with
`InstructionLogsConsistencyError` when it is missing, and accepts a joined
pair exactly when `outer == None ⇔ invoke_level == 1`; any violation yields
the same error. -/
theorem joiner_removes_and_checks :
    (∀ (r : List (ProgramContext × List ProgramLog)) (b : IxMap)
        (out : List (ProgramContext × (Instruction × List ProgramLog))),
      bindMeta r b = .ok out →
      ∀ ctx events, (ctx, events) ∈ r →
        ∃ ix outerIx,
          ((⟨ctx.program_id, ctx.call_index⟩ : InstructionContext), (ix, outerIx)) ∈ b
          ∧ ((outerIx = none) ↔ ctx.invoke_level.val = 1)
          ∧ (ctx, (ix, events)) ∈ out)
    ∧ (∀ (ctx : ProgramContext) (events : List ProgramLog)
        (rest : List (ProgramContext × List ProgramLog)) (b : IxMap),
        removeIx b ⟨ctx.program_id, ctx.call_index⟩ = none →
        bindMeta ((ctx, events) :: rest) b =
          .error (.instructionLogsConsistencyError ⟨ctx.program_id, ctx.call_index⟩))
    ∧ (∀ (ctx : ProgramContext) (events : List ProgramLog)
        (rest : List (ProgramContext × List ProgramLog)) (b : IxMap)
        (ix : Instruction) (outerIx : Option Pubkey) (b' : IxMap),
        removeIx b ⟨ctx.program_id, ctx.call_index⟩ = some ((ix, outerIx), b') →
        ¬((outerIx = none) ↔ ctx.invoke_level.val = 1) →
        bindMeta ((ctx, events) :: rest) b =
          .error (.instructionLogsConsistencyError ⟨ctx.program_id, ctx.call_index⟩)) := by
  refine ⟨?_, ?_, ?_⟩
  · intro r
    induction r with
    | nil => intro b out h ctx events hmem; simp at hmem
    | cons hd tl ih =>
      intro b out h ctx events hmem
      obtain ⟨c0, ev0⟩ := hd
      simp only [bindMeta] at h
      cases hrem : removeIx b ⟨c0.program_id, c0.call_index⟩ with
      | none => simp only [hrem] at h; exact Except.noConfusion h
      | some p =>
        obtain ⟨⟨ix0, o0⟩, b'⟩ := p
        simp only [hrem] at h
        split at h
        · rename_i hcond
          cases hbm : bindMeta tl b' with
          | error e => simp only [hbm] at h; exact Except.noConfusion h
          | ok tail =>
            simp only [hbm, Except.ok.injEq] at h
            subst h
            rcases List.mem_cons.mp hmem with heq | hmem'
            · injection heq with he1 he2
              subst he1; subst he2
              exact ⟨ix0, o0, removeIx_mem hrem,
                (joinCond_iff o0 ctx.invoke_level.val).mp hcond,
                List.mem_cons_self _ _⟩
            · obtain ⟨ix, oI, hb', hiff, hout⟩ := ih b' tail hbm ctx events hmem'
              exact ⟨ix, oI, removeIx_subset hrem _ hb', hiff,
                List.mem_cons_of_mem _ hout⟩
        · exact Except.noConfusion h
  · intro ctx events rest b hrem
    simp only [bindMeta, hrem]
  · intro ctx events rest b ix outerIx b' hrem hviol
    simp only [bindMeta, hrem]
    rw [if_neg]
    intro hcond
    exact hviol ((joinCond_iff outerIx ctx.invoke_level.val).mp hcond)

/-- C5 witness: one top-level context joined against a one-entry binder
map. -/
theorem joiner_removes_and_checks_witness :
    ∃ ix outerIx,
      ((⟨pkOf 0, 0⟩ : InstructionContext), (ix, outerIx)) ∈
        ([(⟨pkOf 0, 0⟩, (⟨pkOf 0, [], []⟩, none))] : IxMap)
      ∧ ((outerIx = none) ↔ (level1 : Level).val = 1)
      ∧ ((⟨pkOf 0, 0, level1⟩ : ProgramContext),
          (ix, ([] : List ProgramLog))) ∈
          [((⟨pkOf 0, 0, level1⟩ : ProgramContext),
            ((⟨pkOf 0, [], []⟩ : Instruction), ([] : List ProgramLog)))] :=
  joiner_removes_and_checks.1
    [(⟨pkOf 0, 0, level1⟩, [])]
    [(⟨pkOf 0, 0⟩, (⟨pkOf 0, [], []⟩, none))]
    [(⟨pkOf 0, 0, level1⟩, (⟨pkOf 0, [], []⟩, []))]
    (by decide) ⟨pkOf 0, 0, level1⟩ [] (by decide)

theorem buildMetas_flags {accounts : List Pubkey} {sgn wrt : Nat → Bool} :
    ∀ {idxs : List Nat} {metas : List AccountMeta},
    buildMetas accounts sgn wrt idxs = some metas →
    ∀ meta ∈ metas, ∃ i, accounts[i]? = some meta.pubkey ∧
      meta.is_signer = sgn i ∧ meta.is_writable = wrt i := by
  intro idxs
  induction idxs with
  | nil =>
    intro metas h meta hmem
    simp only [buildMetas] at h
    injection h with h1
    subst h1
    simp at hmem
  | cons i rest ih =>
    intro metas h meta hmem
    simp only [buildMetas] at h
    cases hacc : accounts[i]? with
    | none => simp [hacc] at h
    | some pk =>
      simp only [hacc] at h
      cases hbm : buildMetas accounts sgn wrt rest with
      | none => simp [hbm] at h
      | some tl =>
        simp only [hbm, Option.some.injEq] at h
        subst h
        rcases List.mem_cons.mp hmem with rfl | hmem'
        · exact ⟨i, hacc, rfl, rfl⟩
        · exact ih hbm meta hmem'

theorem insertIx_mem {m : IxMap} {k : InstructionContext}
    {v : Instruction × Option Pubkey} :
    ∀ x ∈ insertIx m k v, x = (k, v) ∨ x ∈ m := by
  induction m with
  | nil => intro x hx; simp [insertIx] at hx; simp [hx]
  | cons hd tl ih =>
    intro x hx
    obtain ⟨k', v'⟩ := hd
    simp only [insertIx] at hx
    split at hx
    · rename_i heq
      rcases List.mem_cons.mp hx with rfl | hx'
      · subst heq; exact Or.inl rfl
      · exact Or.inr (List.mem_cons_of_mem _ hx')
    · rcases List.mem_cons.mp hx with rfl | hx'
      · exact Or.inr (List.mem_cons_self _ _)
      · rcases ih x hx' with h | h
        · exact Or.inl h
        · exact Or.inr (List.mem_cons_of_mem _ h)

theorem bindInner_flags {accounts : List Pubkey} {sgn wrt : Nat → Bool}
    {outerPid : Pubkey} :
    ∀ (invokes : List UiInnerIx) (f : Pubkey → Nat) (res : IxMap)
      (f' : Pubkey → Nat) (res' : IxMap),
    bindInner accounts sgn wrt outerPid f res invokes = some (.ok (f', res')) →
    (∀ e ∈ res, FlagSpec accounts sgn wrt e.2.1) →
    ∀ e ∈ res', FlagSpec accounts sgn wrt e.2.1 := by
  intro invokes
  induction invokes with
  | nil =>
    intro f res f' res' h hres
    simp only [bindInner] at h
    injection h with h1
    injection h1 with h2
    injection h2 with h3 h4
    subst h4
    exact hres
  | cons iv rest ih =>
    intro f res f' res' h hres
    cases iv with
    | parsed => simp [bindInner] at h
    | compiled pidx accIdxs dataDec =>
      cases dataDec with
      | none =>
        simp only [bindInner] at h
        cases hacc : accounts[pidx]? with
        | none => simp [hacc] at h
        | some pid =>
          simp only [hacc] at h
          cases hbm : buildMetas accounts sgn wrt accIdxs with
          | none => simp [hbm] at h
          | some metas => simp [hbm] at h
      | some data =>
        simp only [bindInner] at h
        cases hacc : accounts[pidx]? with
        | none => simp [hacc] at h
        | some pid =>
          simp only [hacc] at h
          cases hbm : buildMetas accounts sgn wrt accIdxs with
          | none => simp [hbm] at h
          | some metas =>
            simp only [hbm] at h
            refine ih _ _ _ _ h ?_
            intro e he
            rcases insertIx_mem e he with rfl | he'
            · exact buildMetas_flags hbm
            · exact hres e he'

theorem bindTop_flags {accounts : List Pubkey} {sgn wrt : Nat → Bool}
    {inner : List InnerInstructions} :
    ∀ (ixs : List CompiledInstruction) (f : Pubkey → Nat) (res : IxMap)
      (ixIndex : Nat) (f' : Pubkey → Nat) (res' : IxMap),
    bindTop accounts sgn wrt inner f res ixIndex ixs = some (.ok (f', res')) →
    (∀ e ∈ res, FlagSpec accounts sgn wrt e.2.1) →
    ∀ e ∈ res', FlagSpec accounts sgn wrt e.2.1 := by
  intro ixs
  induction ixs with
  | nil =>
    intro f res ixIndex f' res' h hres
    simp only [bindTop] at h
    injection h with h1
    injection h1 with h2
    injection h2 with h3 h4
    subst h4
    exact hres
  | cons cix rest ih =>
    intro f res ixIndex f' res' h hres
    simp only [bindTop] at h
    cases hacc : accounts[cix.program_id_index]? with
    | none => simp [hacc] at h
    | some pid =>
      simp only [hacc] at h
      cases hbm : buildMetas accounts sgn wrt cix.accounts with
      | none => simp [hbm] at h
      | some metas =>
        simp only [hbm] at h
        have hres1 : ∀ e ∈ insertIx res ⟨pid, f pid⟩ (⟨pid, metas, cix.data⟩, none),
            FlagSpec accounts sgn wrt e.2.1 := by
          intro e he
          rcases insertIx_mem e he with rfl | he'
          · exact buildMetas_flags hbm
          · exact hres e he'
        cases hlk : lookupLast inner ixIndex with
        | none =>
          simp only [hlk] at h
          exact ih _ _ _ _ _ h hres1
        | some invokes =>
          simp only [hlk] at h
          cases hbi : bindInner accounts sgn wrt pid (bumpCallIndex f pid)
              (insertIx res ⟨pid, f pid⟩ (⟨pid, metas, cix.data⟩, none)) invokes with
          | none => simp [hbi] at h
          | some r2 =>
            cases r2 with
            | error e2 => simp [hbi] at h
            | ok p2 =>
              obtain ⟨f2, res2⟩ := p2
              simp only [hbi] at h
              have hres2 := bindInner_flags invokes _ _ _ _ hbi hres1
              exact ih _ _ _ _ _ h hres2

/-- C6: every `AccountMeta` emitted by the binder (top-level or inner) has
`is_signer = msg.is_signer(i)` and `is_writable = msg.is_maybe_writable(i)`
for the position `i` in the effective account vector that also supplies its
pubkey — not the inverted assignment of the older draft in `main.rs`. -/
theorem binder_flag_mapping (msg : DecodedMessage) (loadedW loadedR : List Pubkey)
    (inner : List InnerInstructions) (out : IxMap)
    (h : bindInstructions msg loadedW loadedR (some inner) = some (.ok out)) :
    ∀ ctx ix outerIx, (ctx, (ix, outerIx)) ∈ out →
      ∀ meta ∈ ix.accounts, ∃ i,
        (msg.static_account_keys ++ loadedW ++ loadedR)[i]? = some meta.pubkey ∧
        meta.is_signer = msg.is_signer i ∧
        meta.is_writable = msg.is_maybe_writable i := by
  intro ctx ix outerIx hmem meta hmeta
  simp only [bindInstructions] at h
  split at h
  · exact Option.noConfusion h
  · exact Except.noConfusion (Option.some.inj h)
  · rename_i f' res' heq
    obtain rfl : res' = out := Except.ok.inj (Option.some.inj h)
    have hflag := bindTop_flags msg.instructions _ _ _ _ _ heq
      (by intro e he; simp at he)
    have := hflag (ctx, (ix, outerIx)) hmem meta hmeta
    simpa [List.append_assoc] using this

/-- C6 witness: a two-account message whose signer and writable oracles
disagree; the emitted metas carry the straight (not swapped) flags. -/
theorem binder_flag_mapping_witness :
    ∃ i, (([pkOf 0, pkOf 1] : List Pubkey) ++ [] ++ [])[i]? = some (pkOf 1) ∧
      (false : Bool) = decide (i = 0) ∧ (true : Bool) = decide (i = 1) := by
  have h := binder_flag_mapping
    ⟨[pkOf 0, pkOf 1], fun i => decide (i = 0), fun i => decide (i = 1),
      [⟨0, [0, 1], []⟩]⟩ [] [] []
    [(⟨pkOf 0, 0⟩,
      (⟨pkOf 0, [⟨pkOf 0, true, false⟩, ⟨pkOf 1, false, true⟩], []⟩, none))]
    (by decide)
  exact h ⟨pkOf 0, 0⟩
    ⟨pkOf 0, [⟨pkOf 0, true, false⟩, ⟨pkOf 1, false, true⟩], []⟩ none
    (by decide) ⟨pkOf 1, false, true⟩ (by decide)

/-- C7 counterexample: with all three program ids equal and empty
instruction data, `is_decomposable` evaluates `data.split_at(8)` on a slice
shorter than 8 bytes and panics (`none`) instead of skipping the handler;
`parse_instruction` panics on the same input even before its owner check. -/
theorem dispatch_short_data_panics :
    isDecomposable (pkOf 0) (List.replicate 8 0) ⟨pkOf 0, 0, level1⟩
      ⟨pkOf 0, [], []⟩ = none
    ∧ parseIx (pkOf 0) (List.replicate 8 0) (fun bytes => Except.ok bytes)
      ⟨pkOf 0, [], []⟩ = none := by
  constructor <;> rfl

/-- C7 amended: dispatch skips a handler without panicking whenever one of
the program-id preconditions fails (any data length, by `&&`
short-circuiting) or the data is at least 8 bytes long; but when all the
program ids agree and the data is shorter than 8 bytes, the discriminator
`split_at` panics instead of skipping, and `parse_instruction` panics on
short data unconditionally. -/
theorem dispatch_guard_amended (owner : Pubkey) (disc : List Byte)
    (ctx : ProgramContext) (ix : Instruction) :
    (ctx.program_id ≠ owner ∨ ix.program_id ≠ owner →
        isDecomposable owner disc ctx ix = some false)
    ∧ (8 ≤ ix.data.length →
        isDecomposable owner disc ctx ix =
          some (decide (ctx.program_id = owner ∧ owner = ix.program_id ∧
                        disc = ix.data.take 8)))
    ∧ (ctx.program_id = owner → owner = ix.program_id → ix.data.length < 8 →
        isDecomposable owner disc ctx ix = none)
    ∧ (∀ (T : Type) (deser : List Byte → Except String T),
        ix.data.length < 8 → parseIx owner disc deser ix = none) := by
  refine ⟨?_, ?_, ?_, ?_⟩
  · intro h
    simp only [isDecomposable]
    rcases h with h | h
    · rw [if_neg h]
    · by_cases h1 : ctx.program_id = owner
      · rw [if_pos h1, if_neg (fun he => h he.symm)]
      · rw [if_neg h1]
  · intro hlen
    simp only [isDecomposable]
    by_cases h1 : ctx.program_id = owner
    · by_cases h2 : owner = ix.program_id
      · rw [if_pos h1, if_pos h2, if_pos hlen]
        simp [h1, h2]
      · rw [if_pos h1, if_neg h2]
        simp [h2]
    · rw [if_neg h1]
      simp [h1]
  · intro h1 h2 hlen
    simp only [isDecomposable]
    rw [if_pos h1, if_pos h2, if_neg (by omega)]
  · intro T deser hlen
    simp only [parseIx]
    rw [if_neg (by omega)]

/-- C7 witness for the amended statement: an owner mismatch on empty data is
skipped without a panic. -/
theorem dispatch_guard_amended_witness :
    isDecomposable (pkOf 1) (List.replicate 8 0) ⟨pkOf 0, 0, level1⟩
      ⟨pkOf 0, [], []⟩ = some false :=
  (dispatch_guard_amended (pkOf 1) (List.replicate 8 0) ⟨pkOf 0, 0, level1⟩
    ⟨pkOf 0, [], []⟩).1 (Or.inl (by decide))

theorem findAmount_insertAmount (m : BalanceMap) (k ctx : WalletContext) (v : Int) :
    findAmount (insertAmount m k v) ctx =
      if ctx = k then some v else findAmount m ctx := by
  induction m with
  | nil => simp only [insertAmount, findAmount]; split <;> simp_all [eq_comm]
  | cons hd tl ih =>
    obtain ⟨k', v'⟩ := hd
    simp only [insertAmount]
    split
    · rename_i hk
      subst hk
      simp only [findAmount]
      split <;> simp_all [eq_comm]
    · rename_i hk
      simp only [findAmount]
      split
      · rename_i hctx
        rw [if_neg]
        intro hck
        exact hk (hctx ▸ hck ▸ rfl)
      · exact ih

theorem findAmount_entrySubtract (m : BalanceMap) (k ctx : WalletContext) (v : Int) :
    findAmount (entrySubtract m k v) ctx =
      if ctx = k then some ((findAmount m ctx).getD 0 - v) else findAmount m ctx := by
  induction m with
  | nil => simp only [entrySubtract, findAmount]; split <;> simp_all [eq_comm]
  | cons hd tl ih =>
    obtain ⟨k', v'⟩ := hd
    simp only [entrySubtract]
    split
    · rename_i hk
      subst hk
      simp only [findAmount]
      split <;> simp_all [eq_comm]
    · rename_i hk
      simp only [findAmount]
      split
      · rename_i hctx
        rw [if_neg]
        intro hck
        exact hk (hctx ▸ hck ▸ rfl)
      · exact ih

theorem findAmount_eq_none {m : BalanceMap} {ctx : WalletContext} :
    findAmount m ctx = none ↔ ctx ∉ m.map Prod.fst := by
  induction m with
  | nil => simp [findAmount]
  | cons hd tl ih =>
    obtain ⟨k, v⟩ := hd
    simp only [findAmount]
    split <;> simp_all [eq_comm]

theorem collectPost_resolved {accounts : List Pubkey} :
    ∀ {post : List UiTokenBalance} {postR : List (WalletContext × Int)}
      {acc : BalanceMap},
    resolveBalances accounts post = some (.ok postR) →
    collectPost accounts acc post =
      some (.ok (postR.foldl (fun m p => insertAmount m p.1 p.2) acc)) := by
  intro post
  induction post with
  | nil =>
    intro postR acc h
    simp only [resolveBalances, Option.some.injEq, Except.ok.injEq] at h
    subst h
    rfl
  | cons b rest ih =>
    intro postR acc h
    simp only [resolveBalances] at h
    cases htp : tryParseBalance accounts b with
    | none => simp [htp] at h
    | some r =>
      cases r with
      | error e => simp [htp] at h
      | ok p =>
        obtain ⟨bctx, bamt⟩ := p
        simp only [htp] at h
        cases hr : resolveBalances accounts rest with
        | none => simp [hr] at h
        | some r2 =>
          cases r2 with
          | error e2 => simp [hr] at h
          | ok tl =>
            simp only [hr, Option.some.injEq, Except.ok.injEq] at h
            subst h
            simp only [collectPost, htp]
            exact ih hr

theorem subtractPre_resolved {accounts : List Pubkey} :
    ∀ {pre : List UiTokenBalance} {preR : List (WalletContext × Int)}
      {acc : BalanceMap},
    resolveBalances accounts pre = some (.ok preR) →
    subtractPre accounts acc pre =
      some (.ok (preR.foldl (fun m p => entrySubtract m p.1 p.2) acc)) := by
  intro pre
  induction pre with
  | nil =>
    intro preR acc h
    simp only [resolveBalances, Option.some.injEq, Except.ok.injEq] at h
    subst h
    rfl
  | cons b rest ih =>
    intro preR acc h
    simp only [resolveBalances] at h
    cases htp : tryParseBalance accounts b with
    | none => simp [htp] at h
    | some r =>
      cases r with
      | error e => simp [htp] at h
      | ok p =>
        obtain ⟨bctx, bamt⟩ := p
        simp only [htp] at h
        cases hr : resolveBalances accounts rest with
        | none => simp [hr] at h
        | some r2 =>
          cases r2 with
          | error e2 => simp [hr] at h
          | ok tl =>
            simp only [hr, Option.some.injEq, Except.ok.injEq] at h
            subst h
            simp only [subtractPre, htp]
            exact ih hr

theorem findAmount_foldl_ins :
    ∀ (l : List (WalletContext × Int)) (acc : BalanceMap) (ctx : WalletContext),
    (l.map Prod.fst).Nodup →
    findAmount (l.foldl (fun m p => insertAmount m p.1 p.2) acc) ctx =
      match findAmount l ctx with
      | some v => some v
      | none => findAmount acc ctx := by
  intro l
  induction l with
  | nil => intro acc ctx _; simp [findAmount]
  | cons p tl ih =>
    intro acc ctx hn
    obtain ⟨k, v⟩ := p
    rw [List.map_cons] at hn
    obtain ⟨hp, htl⟩ := List.nodup_cons.mp hn
    simp only [List.foldl_cons]
    rw [ih (insertAmount acc k v) ctx htl]
    by_cases hc : ctx = k
    · subst hc
      have htlnone : findAmount tl ctx = none := findAmount_eq_none.mpr hp
      simp only [htlnone]
      rw [findAmount_insertAmount, if_pos rfl]
      simp [findAmount]
    · have hfind : findAmount ((k, v) :: tl) ctx = findAmount tl ctx := by
        simp only [findAmount]
        rw [if_neg (fun h => hc h.symm)]
      rw [hfind]
      cases hf : findAmount tl ctx with
      | some w => simp only [hf]
      | none =>
        simp only [hf]
        rw [findAmount_insertAmount, if_neg hc]

theorem findAmount_foldl_sub :
    ∀ (l : List (WalletContext × Int)) (acc : BalanceMap) (ctx : WalletContext),
    (l.map Prod.fst).Nodup →
    findAmount (l.foldl (fun m p => entrySubtract m p.1 p.2) acc) ctx =
      match findAmount l ctx with
      | some q => some ((findAmount acc ctx).getD 0 - q)
      | none => findAmount acc ctx := by
  intro l
  induction l with
  | nil => intro acc ctx _; simp [findAmount]
  | cons p tl ih =>
    intro acc ctx hn
    obtain ⟨k, v⟩ := p
    rw [List.map_cons] at hn
    obtain ⟨hp, htl⟩ := List.nodup_cons.mp hn
    simp only [List.foldl_cons]
    rw [ih (entrySubtract acc k v) ctx htl]
    by_cases hc : ctx = k
    · subst hc
      have htlnone : findAmount tl ctx = none := findAmount_eq_none.mpr hp
      simp only [htlnone]
      rw [findAmount_entrySubtract, if_pos rfl]
      simp [findAmount]
    · have hfind : findAmount ((k, v) :: tl) ctx = findAmount tl ctx := by
        simp only [findAmount]
        rw [if_neg (fun h => hc h.symm)]
      rw [hfind]
      cases hf : findAmount tl ctx with
      | some w =>
        simp only [hf]
        rw [findAmount_entrySubtract, if_neg hc]
      | none =>
        simp only [hf]
        rw [findAmount_entrySubtract, if_neg hc]

/-- C8 counterexample: when `pre_token_balances` is absent
(`OptionSerializer::None`) and `post_token_balances` is present, the code
returns the empty map, although the post list resolves to a wallet context
with amount 5 that the claim says must keep its post value. -/
theorem token_balances_absent_pre_loses_post :
    getAssetsChanges [pkOf 2] none (some [⟨0, none, pkOf 3, some 5⟩]) =
      some (.ok [])
    ∧ tryParseBalance [pkOf 2] ⟨0, none, pkOf 3, some 5⟩ =
        some (.ok (⟨pkOf 2, none, pkOf 3⟩, 5)) := by
  constructor <;> rfl

/-- C8 amended: when both `pre_token_balances` and `post_token_balances` are
present (if either is absent the result is the empty map), every wallet
context maps to its parsed post amount minus its parsed pre amount: post-only
contexts keep their post value, pre-only contexts get the negated pre value,
and list asymmetry produces no error. -/
theorem token_balances_changes_amended (accounts : List Pubkey)
    (pre post : List UiTokenBalance) (preR postR : List (WalletContext × Int))
    (hpre : resolveBalances accounts pre = some (.ok preR))
    (hpost : resolveBalances accounts post = some (.ok postR))
    (hpreN : (preR.map Prod.fst).Nodup)
    (hpostN : (postR.map Prod.fst).Nodup) :
    ∃ m, getAssetsChanges accounts (some pre) (some post) = some (.ok m)
      ∧ ∀ ctx, findAmount m ctx =
          match findAmount postR ctx, findAmount preR ctx with
          | some p, some q => some (p - q)
          | some p, none => some p
          | none, some q => some (-q)
          | none, none => none := by
  have hc : collectPost accounts [] post =
      some (.ok (postR.foldl (fun m p => insertAmount m p.1 p.2) [])) :=
    collectPost_resolved hpost
  have hs : subtractPre accounts
      (postR.foldl (fun m p => insertAmount m p.1 p.2) []) pre =
      some (.ok (preR.foldl (fun m p => entrySubtract m p.1 p.2)
        (postR.foldl (fun m p => insertAmount m p.1 p.2) []))) :=
    subtractPre_resolved hpre
  refine ⟨preR.foldl (fun m p => entrySubtract m p.1 p.2)
      (postR.foldl (fun m p => insertAmount m p.1 p.2) []), ?_, ?_⟩
  · simp only [getAssetsChanges, hc]
    exact hs
  · intro ctx
    rw [findAmount_foldl_sub preR _ ctx hpreN]
    have hpostm : findAmount
        (postR.foldl (fun m p => insertAmount m p.1 p.2) []) ctx =
        findAmount postR ctx := by
      rw [findAmount_foldl_ins postR [] ctx hpostN]
      cases findAmount postR ctx <;> rfl
    rw [hpostm]
    cases findAmount postR ctx with
    | some p =>
      cases findAmount preR ctx with
      | some q => simp
      | none => rfl
    | none =>
      cases findAmount preR ctx with
      | some q => simp
      | none => rfl

/-- C8 witness: a pre-only and a post-only wallet context; the first keeps
its post amount 5 and the second yields the negative delta -3. -/
theorem token_balances_changes_amended_witness :
    ∃ m, getAssetsChanges [pkOf 0, pkOf 1]
        (some [⟨0, none, pkOf 3, some 3⟩]) (some [⟨1, none, pkOf 3, some 5⟩]) =
        some (.ok m)
      ∧ ∀ ctx, findAmount m ctx =
          match findAmount [(⟨pkOf 1, none, pkOf 3⟩, (5 : Int))] ctx,
                findAmount [(⟨pkOf 0, none, pkOf 3⟩, (3 : Int))] ctx with
          | some p, some q => some (p - q)
          | some p, none => some p
          | none, some q => some (-q)
          | none, none => none :=
  token_balances_changes_amended [pkOf 0, pkOf 1]
    [⟨0, none, pkOf 3, some 3⟩] [⟨1, none, pkOf 3, some 5⟩]
    [(⟨pkOf 0, none, pkOf 3⟩, 3)] [(⟨pkOf 1, none, pkOf 3⟩, 5)]
    (by decide) (by decide) (by decide) (by decide)

/-- C2 counterexample: an unregistered signature whose fetch succeeds but
whose `transaction_consumer` errors is still registered — the claim says it
must stay unregistered on any error. -/
theorem live_registers_despite_consumer_error :
    @processSubscriptionMessage Unit Unit false
      (.ok .transactionNeeed) (.ok ()) (fun _ => .error ()) =
      ⟨true, true, true⟩ := rfl

/-- C2 amended: `register(program_id, sig)` is called iff the signature is
unregistered and either `event_consumer` returned `ConsumeSuccess`, or it
returned `TransactionNeeed` and the transaction fetch succeeded; the
decision is independent of the `transaction_consumer` result (its error is
only logged), while an `event_consumer` error or a fetch error skips
registration. -/
theorem live_register_iff {Tx E : Type} (isRegistered : Bool)
    (ec : Except E EventConsumeResult) (fetch : Except E Tx)
    (tc : Tx → Except E Unit) :
    ((processSubscriptionMessage isRegistered ec fetch tc).registerCalled = true ↔
      (isRegistered = false ∧
        (ec = .ok .consumeSuccess ∨
          (ec = .ok .transactionNeeed ∧ ∃ tx, fetch = .ok tx))))
    ∧ (∀ tc' : Tx → Except E Unit,
        (processSubscriptionMessage isRegistered ec fetch tc).registerCalled =
          (processSubscriptionMessage isRegistered ec fetch tc').registerCalled) := by
  constructor
  · cases isRegistered with
    | true => simp [processSubscriptionMessage]
    | false =>
      cases ec with
      | error e => simp [processSubscriptionMessage]
      | ok r =>
        cases r with
        | consumeSuccess => simp [processSubscriptionMessage]
        | transactionNeeed =>
          cases fetch with
          | error e => simp [processSubscriptionMessage]
          | ok tx =>
            cases htc : tc tx <;>
              simp [processSubscriptionMessage, htc]
  · intro tc'
    cases isRegistered with
    | true => rfl
    | false =>
      cases ec with
      | error e => rfl
      | ok r =>
        cases r with
        | consumeSuccess => rfl
        | transactionNeeed =>
          cases fetch with
          | error e => rfl
          | ok tx => cases htc : tc tx <;> cases htc' : tc' tx <;>
            simp [processSubscriptionMessage, htc, htc']

/-- C2 witness: with a successful consumer the register decision is the same
as with a failing one, and registration happens. -/
theorem live_register_iff_witness :
    (@processSubscriptionMessage Unit Unit false
      (.ok .transactionNeeed) (.ok ()) (fun _ => .ok ())).registerCalled = true :=
  (@live_register_iff Unit Unit false
    (.ok .transactionNeeed) (.ok ()) (fun _ => .ok ())).1.mpr
    ⟨rfl, Or.inr ⟨rfl, ⟨(), rfl⟩⟩⟩

theorem joinChunkTasks_fst {Sig : Type} :
    ∀ (results : List ChunkJoinOutcome) (lt : Option Sig),
    (joinChunkTasks results lt).1 = true ↔
      ∀ r ∈ results, r = .okTrue ∨ r = .okFalse := by
  intro results
  induction results with
  | nil => intro lt; simp [joinChunkTasks]
  | cons r rest ih =>
    intro lt
    cases r with
    | okTrue =>
      simp only [joinChunkTasks]
      rw [ih lt]
      simp
    | okFalse =>
      simp only [joinChunkTasks]
      rw [ih none]
      simp
    | okErr => simp [joinChunkTasks]
    | joinErr => simp [joinChunkTasks]

theorem joinChunkTasks_snd {Sig : Type} :
    ∀ (results : List ChunkJoinOutcome) (lt : Option Sig),
    (joinChunkTasks results lt).2 =
      if ChunkJoinOutcome.okFalse ∈ results then none else lt := by
  intro results
  induction results with
  | nil => intro lt; simp [joinChunkTasks]
  | cons r rest ih =>
    intro lt
    cases r with
    | okTrue =>
      simp only [joinChunkTasks]
      rw [ih lt]
      simp [List.mem_cons]
    | okFalse =>
      simp only [joinChunkTasks]
      rw [ih none]
      simp [List.mem_cons]
    | okErr =>
      simp only [joinChunkTasks]
      rw [ih lt]
      simp [List.mem_cons]
    | joinErr =>
      simp only [joinChunkTasks]
      rw [ih lt]
      simp [List.mem_cons]

theorem runChunk_false_ne_true {E : Type} :
    ∀ outcomes : List (SigOutcome E), runChunk false outcomes ≠ .ok true := by
  intro outcomes
  induction outcomes with
  | nil => simp [runChunk]
  | cons sp rest ih =>
    simp only [runChunk]
    cases sp.fetch with
    | error e => exact ih
    | ok u =>
      cases sp.register with
      | error e => simp
      | ok u' => cases htc : sp.consume <;> exact ih

/-- C1 counterexample: a single chunk that joined cleanly but returned
`false` (a per-signature fetch or consumer failure): the cursor is not
advanced, yet `resync_ptr_setter` IS called — the claim requires that
neither happens. -/
theorem resync_ptr_after_false_chunk :
    @resyncTickCommit Nat [.okFalse] (some 0) none = (none, true) := rfl

/-- C1 amended (rollback cell empty, candidate batch non-empty so that
`last_transaction = Some s`): the cursor is advanced — to `last_transaction`
— iff every chunk joined with `Ok(true)`; `resync_ptr_setter` is called iff
no chunk returned `Err` or panicked, i.e. chunks returning `Ok(false)`
suppress the cursor advance but not the pointer publication.  A chunk
returns `Ok(true)` iff every signature in it fetched, consumed and
registered without error. -/
theorem runChunk_ok_true_iff {E : Type} :
    ∀ outcomes : List (SigOutcome E),
    runChunk true outcomes = .ok true ↔
      ∀ sp ∈ outcomes,
        sp.fetch = .ok () ∧ sp.consume = .ok () ∧ sp.register = .ok () := by
  intro outcomes
  induction outcomes with
  | nil => simp [runChunk]
  | cons sp rest ih =>
    simp only [runChunk]
    cases hf : sp.fetch with
    | error e =>
      constructor
      · intro h
        exact absurd h (runChunk_false_ne_true rest)
      · intro h
        have := (h sp (List.mem_cons_self _ _)).1
        rw [hf] at this
        cases this
    | ok u =>
      cases hr : sp.register with
      | error e =>
        constructor
        · intro h
          exact Except.noConfusion h
        · intro h
          have := (h sp (List.mem_cons_self _ _)).2.2
          rw [hr] at this
          cases this
      | ok u' =>
        cases hc : sp.consume with
        | error e =>
          constructor
          · intro h
            exact absurd h (runChunk_false_ne_true rest)
          · intro h
            have := (h sp (List.mem_cons_self _ _)).2.1
            rw [hc] at this
            cases this
        | ok u'' =>
          rw [ih]
          constructor
          · intro h
            intro sp' hmem
            rcases List.mem_cons.mp hmem with rfl | hmem'
            · exact ⟨hf, hc, hr⟩
            · exact h sp' hmem'
          · intro h sp' hmem'
            exact h sp' (List.mem_cons_of_mem _ hmem')

/-- C1 amended (rollback cell empty; the candidate batch is non-empty so
that `last_transaction = Some s`): the cursor is advanced — to
`last_transaction` — iff every chunk joined with `Ok(true)`, while
`resync_ptr_setter` is called iff no chunk returned `Err` or panicked;
chunks returning `Ok(false)` therefore suppress the cursor advance but NOT
the pointer publication.  A chunk returns `Ok(true)` iff every signature in
it fetched, consumed and registered without error. -/
theorem resync_commit_amended {Sig : Type} (results : List ChunkJoinOutcome) (s : Sig) :
    ((resyncTickCommit results (some s) none).1 = some s ↔
        ∀ r ∈ results, r = .okTrue)
    ∧ ((resyncTickCommit results (some s) none).1 = none ∨
        (resyncTickCommit results (some s) none).1 = some s)
    ∧ ((resyncTickCommit results (some s) none).2 = true ↔
        ∀ r ∈ results, r = .okTrue ∨ r = .okFalse)
    ∧ (∀ (E : Type) (outcomes : List (SigOutcome E)),
        runChunk true outcomes = .ok true ↔
          ∀ sp ∈ outcomes,
            sp.fetch = .ok () ∧ sp.consume = .ok () ∧ sp.register = .ok ()) := by
  refine ⟨?_, ?_, ?_, fun E outcomes => runChunk_ok_true_iff outcomes⟩
  · by_cases hsucc : (joinChunkTasks results (some s)).1 = true
    · simp only [resyncTickCommit, hsucc, if_true, setLastResynced]
      rw [joinChunkTasks_snd results (some s)]
      by_cases hmem : ChunkJoinOutcome.okFalse ∈ results
      · rw [if_pos hmem]
        constructor
        · intro h
          cases h
        · intro hall
          have := hall _ hmem
          cases this
      · rw [if_neg hmem]
        constructor
        · intro _
          intro r hr
          rcases (joinChunkTasks_fst results (some s)).mp hsucc r hr with h | h
          · exact h
          · exact absurd (h ▸ hr) hmem
        · intro _
          rfl
    · simp only [resyncTickCommit, hsucc, if_false]
      constructor
      · intro h
        cases h
      · intro hall
        exact absurd ((joinChunkTasks_fst results (some s)).mpr
          (fun r hr => Or.inl (hall r hr))) hsucc
  · by_cases hsucc : (joinChunkTasks results (some s)).1 = true
    · simp only [resyncTickCommit, hsucc, if_true, setLastResynced]
      rw [joinChunkTasks_snd results (some s)]
      by_cases hmem : ChunkJoinOutcome.okFalse ∈ results
      · rw [if_pos hmem]
        exact Or.inl rfl
      · rw [if_neg hmem]
        exact Or.inr rfl
    · simp only [resyncTickCommit, hsucc, if_false]
      exact Or.inl rfl
  · by_cases hsucc : (joinChunkTasks results (some s)).1 = true
    · simp only [resyncTickCommit, hsucc, if_true]
      simp only [true_iff]
      exact (joinChunkTasks_fst results (some s)).mp hsucc
    · simp only [resyncTickCommit, hsucc, if_false]
      constructor
      · intro h
        cases h
      · intro hall
        exact absurd ((joinChunkTasks_fst results (some s)).mpr hall) hsucc

/-- C1 witness: an all-`Ok(true)` tick advances the cursor; and a clean
chunk run returns `Ok(true)`. -/
theorem resync_commit_amended_witness :
    (@resyncTickCommit Nat [.okTrue] (some 7) none).1 = some 7 ∧
    runChunk (E := Unit) true [⟨.ok (), .ok (), .ok ()⟩] = .ok true := by
  have h := @resync_commit_amended Nat [.okTrue] 7
  refine ⟨h.1.mpr ?_, (h.2.2.2 Unit [⟨.ok (), .ok (), .ok ()⟩]).mpr ?_⟩
  · intro r hr
    simp only [List.mem_singleton] at hr
    exact hr
  · intro sp hsp
    simp only [List.mem_singleton] at hsp
    subst hsp
    exact ⟨rfl, rfl, rfl⟩

/-- C9 counterexample: with `attempts_count = 0` the loop still performs a
first fetch attempt (the claim allows at most zero); and when that attempt
fails, the `usize` decrement wraps around and the loop keeps retrying. -/
theorem retry_zero_attempts_performs_fetch :
    @getTransactionBySignature Unit Unit 0 [.ok ()] =
      some (.ok (), 1, 0)
    ∧ @getTransactionBySignature Unit Unit 0
        [.error (), .ok ()] = some (.ok (), 2, 1) := by
  constructor <;> rfl

theorem getTx_bounds {Tx E : Type} :
    ∀ (outcomes : List (Except E Tx)) (n : Nat), 1 ≤ n → n < 2 ^ 64 →
    ∀ r a s, getTransactionBySignature n outcomes = some (r, a, s) →
      a ≤ n ∧ s + 1 = a := by
  intro outcomes
  induction outcomes with
  | nil =>
    intro n _ _ r a s h
    simp [getTransactionBySignature] at h
  | cons o rest ih =>
    intro n hn1 hn2 r a s h
    cases o with
    | ok tx =>
      simp only [getTransactionBySignature, Option.some.injEq,
        Prod.mk.injEq] at h
      obtain ⟨-, ha, hs⟩ := h
      omega
    | error e =>
      simp only [getTransactionBySignature] at h
      have hac : (n + (2 ^ 64 - 1)) % 2 ^ 64 = n - 1 := by omega
      rw [hac] at h
      by_cases hz : n - 1 = 0
      · rw [if_pos hz] at h
        simp only [Option.some.injEq, Prod.mk.injEq] at h
        obtain ⟨-, ha, hs⟩ := h
        omega
      · rw [if_neg hz] at h
        cases hg : getTransactionBySignature (n - 1) rest with
        | none =>
          simp only [hg] at h
          exact Option.noConfusion h
        | some t =>
          obtain ⟨r', a', s'⟩ := t
          simp only [hg, Option.some.injEq, Prod.mk.injEq] at h
          obtain ⟨-, ha, hs⟩ := h
          have := ih (n - 1) (by omega) (by omega) r' a' s' hg
          omega

theorem getTx_all_fail {Tx E : Type} :
    ∀ (outcomes : List (Except E Tx)) (n : Nat), 1 ≤ n → n < 2 ^ 64 →
    ∀ e : E, outcomes[n - 1]? = some (.error e) →
    (∀ i, i < n → ∃ e' : E, outcomes[i]? = some (.error e')) →
    getTransactionBySignature n outcomes = some (.error e, n, n - 1) := by
  intro outcomes
  induction outcomes with
  | nil =>
    intro n hn1 _ e hlast _
    simp at hlast
  | cons o rest ih =>
    intro n hn1 hn2 e hlast hall
    obtain ⟨e0, he0⟩ := hall 0 (by omega)
    have ho : o = .error e0 := by simpa using he0
    subst ho
    simp only [getTransactionBySignature]
    have hac : (n + (2 ^ 64 - 1)) % 2 ^ 64 = n - 1 := by omega
    rw [hac]
    by_cases hz : n - 1 = 0
    · rw [if_pos hz]
      have hn : n = 1 := by omega
      subst hn
      have he : e0 = e := by
        have hl := hlast
        rw [show (1 : Nat) - 1 = 0 from rfl] at hl
        simp only [List.getElem?_cons_zero, Option.some.injEq] at hl
        injection hl with h1
      rw [he, hz]
    · rw [if_neg hz]
      have hidx : n - 1 = (n - 2) + 1 := by omega
      rw [hidx, List.getElem?_cons_succ] at hlast
      have hrec := ih (n - 1) (by omega) (by omega) e
        (by rw [show (n - 1) - 1 = n - 2 by omega]; exact hlast)
        (by
          intro i hi
          obtain ⟨e', he'⟩ := hall (i + 1) (by omega)
          rw [List.getElem?_cons_succ] at he'
          exact ⟨e', he'⟩)
      simp only [hrec, Option.some.injEq, Prod.mk.injEq]
      refine ⟨trivial, by omega, by omega⟩

/-- C9 amended: for every configured `attempts_count ≥ 1` (and below the
`usize` wrap), the fetch performs at most `attempts_count` attempts with one
sleep between consecutive attempts, and when the first `attempts_count`
attempts all fail it terminates after exactly `attempts_count` attempts,
propagating the error of the last one. -/
theorem retry_fetch_amended {Tx E : Type} (n : Nat) (outcomes : List (Except E Tx))
    (h1 : 1 ≤ n) (h2 : n < 2 ^ 64) :
    (∀ r a s, getTransactionBySignature n outcomes = some (r, a, s) →
        a ≤ n ∧ s + 1 = a)
    ∧ (∀ e : E, outcomes[n - 1]? = some (.error e) →
        (∀ i, i < n → ∃ e' : E, outcomes[i]? = some (.error e')) →
        getTransactionBySignature n outcomes = some (.error e, n, n - 1)) :=
  ⟨getTx_bounds outcomes n h1 h2,
   fun e => getTx_all_fail outcomes n h1 h2 e⟩

/-- C9 witness: two configured attempts, both failing; the second attempt's
error is propagated after exactly 2 attempts and 1 sleep. -/
theorem retry_fetch_amended_witness :
    @getTransactionBySignature Unit String 2 [.error "a", .error "b"] =
      some (.error "b", 2, 1) :=
  (@retry_fetch_amended Unit String 2 [.error "a", .error "b"]
    (by decide) (by decide)).2 "b" rfl
    (by
      intro i hi
      match i, hi with
      | 0, _ => exact ⟨"a", rfl⟩
      | 1, _ => exact ⟨"b", rfl⟩)

end SolanaEventsVerif
